import Mathlib

/-!
# Verification of the OpenReviewAC repository

Shallow embedding of the data model and operations of the OpenReviewAC
scripts (`histogram_scores.py`, `list_author_papers.py`, `utils/gsheet.py`)
together with theorems settling the specification claims about them.

Conventions:
* Python strings are `String`; Python's substring test `needle in hay` is
  `strIn`; Python list membership is `List.contains`.
* Machine-level serialization (pickle) is modelled as storing the value
  itself; a file whose content cannot be deserialized (or whose read fails)
  is modelled as holding `none`.
* Fallible Python code (uncaught exceptions) returns `Except PyErr` or
  `Option`; caught exceptions follow the source's `except` branches.
* Rational numbers `ℚ` stand for Python/numpy floats (exact arithmetic).
-/

/-! ## String utilities (Python `in`, `endswith`, `split`, `int`) -/

/-- Test `seqLeads needle hay`: `needle` occurs at the start of `hay`
(character-list version of Python `hay.startswith(needle)`). -/
def seqLeads : List Char → List Char → Bool
  | [], _ => true
  | _ :: _, [] => false
  | a :: as, b :: bs => a == b && seqLeads as bs

/-- Test `seqHas needle hay`: `needle` occurs contiguously somewhere in `hay`
(character-list version of Python `needle in hay`). -/
def seqHas (needle : List Char) : List Char → Bool
  | [] => seqLeads needle []
  | c :: t => seqLeads needle (c :: t) || seqHas needle t

/-- Python `needle in hay` on strings. -/
def strIn (needle hay : String) : Bool :=
  seqHas needle.toList hay.toList

/-- Python `hay.endswith(tail)`. -/
def strEndsWith (hay tail : String) : Bool :=
  seqLeads tail.toList.reverse hay.toList.reverse

/-- Characters after the first occurrence of `needle` in `hay`
(`none` when `needle` does not occur).  This models
`hay.split(needle)[1:]` re-joined, of which the source only ever
inspects the part up to the next `'/'` (see `paperNumOf`). -/
def afterFirst (needle : List Char) : List Char → Option (List Char)
  | [] => if seqLeads needle [] then some (List.drop needle.length []) else none
  | c :: t =>
    if seqLeads needle (c :: t) then some (List.drop needle.length (c :: t))
    else afterFirst needle t

/-- Value of a nonempty all-digit character list, else `none`. -/
def parseNatDigits (s : List Char) : Option Nat :=
  if s ≠ [] && s.all (fun c => c.isDigit) then
    some (s.foldl (fun acc c => 10 * acc + (c.toNat - '0'.toNat)) 0)
  else none

/-- Python `int(s)` on a stripped literal: optional sign followed by
digits; anything else raises `ValueError`, modelled as `none`
(whitespace/underscore forms never occur in group identifiers). -/
def pyInt (s : List Char) : Option Int :=
  match s with
  | '-' :: rest => (parseNatDigits rest).map (fun n => -(n : Int))
  | '+' :: rest => (parseNatDigits rest).map (fun n => (n : Int))
  | _ => (parseNatDigits s).map (fun n => (n : Int))

/-- Python `l.index(k)`: index of the first occurrence, `none` when the
element is absent (where the source lets `ValueError` escape or catches
it, the caller handles the `none`). -/
def pyIndex (l : List String) (k : String) : Option Nat :=
  match l with
  | [] => none
  | x :: t => if x = k then some 0 else (pyIndex t k).map (· + 1)

/-! ## Disk cache (`ScoreHistogramGenerator._load_cache` / `_save_cache`)

The filesystem is a map from paths to file contents; a file holds either
a decodable pickle of a value `v` (modelled `some v`) or undecodable /
unreadable bytes (modelled `none`).  `hashFn` stands for
`hashlib.md5(key.encode()).hexdigest()`; every theorem below holds for an
arbitrary hash function. -/

/-- Filesystem: path → file content, `none` = file does not exist. -/
abbrev FS (V : Type) := String → Option (Option V)

/-- Model of `ScoreHistogramGenerator._get_cache_path`: the cache directory joined with the hex digest of the key plus a pkl suffix. -/
def cachePath (hashFn : String → String) (cacheDir cacheKey : String) : String :=
  cacheDir ++ "/" ++ hashFn cacheKey ++ ".pkl"

/-- Model of `ScoreHistogramGenerator._load_cache`: `None` when caching is off or a
refresh is forced; `None` when the file is missing; the deserialized value
when the read succeeds; `None` (after logging) when reading or
deserializing raises. -/
def loadCache {V : Type} (useCache refreshCache : Bool) (fs : FS V)
    (hashFn : String → String) (cacheDir cacheKey : String) : Option V :=
  if !useCache || refreshCache then none
  else
    match fs (cachePath hashFn cacheDir cacheKey) with
    | none => none
    | some (some v) => some v
    | some none => none

/-- Model of `ScoreHistogramGenerator._save_cache`: no-op when caching is off;
writes the pickled value when the write succeeds (`writeOk`); leaves the
filesystem unchanged (after logging) when open/dump raises. -/
def saveCache {V : Type} (useCache : Bool) (fs : FS V)
    (hashFn : String → String) (cacheDir cacheKey : String) (v : V)
    (writeOk : Bool) : FS V :=
  if !useCache then fs
  else if writeOk then
    fun p => if p = cachePath hashFn cacheDir cacheKey then some (some v) else fs p
  else fs

/-! ## Claim C1: cache round-trip -/

/-- Claim C1: with caching enabled (`use_cache = true`), not refreshing
(`refresh_cache = false`) and the write succeeding, `_save_cache(k, v)`
followed by `_load_cache(k)` returns exactly `v`, for every key `k`,
value `v`, prior filesystem state and hash function. -/
theorem cache_roundtrip_c1 {V : Type} (hashFn : String → String)
    (cacheDir cacheKey : String) (v : V) (fs : FS V) :
    loadCache true false (saveCache true fs hashFn cacheDir cacheKey v true)
      hashFn cacheDir cacheKey = some v := by
  simp [loadCache, saveCache]

/-! ## Claim C7: cache errors never propagate -/

/-- Claim C7: a cache file whose read or deserialization fails makes
`_load_cache` return `None` (a cache miss) rather than raising, and a
failing write makes `_save_cache` return normally with the filesystem
unchanged; both are total functions, so neither re-raises. -/
theorem cache_errors_c7 {V : Type} (hashFn : String → String)
    (cacheDir cacheKey : String) (fs : FS V) (v : V) (useCache : Bool) :
    (fs (cachePath hashFn cacheDir cacheKey) = some none →
      loadCache true false fs hashFn cacheDir cacheKey = none)
    ∧ saveCache useCache fs hashFn cacheDir cacheKey v false = fs := by
  constructor
  · intro h
    simp [loadCache, h]
  · cases useCache <;> simp [saveCache]

/-- Witness for C7 at a concrete corrupt store: every path holds
undecodable bytes and the load comes back `none`. -/
theorem cache_errors_c7_witness :
    loadCache true false (fun _ => (some none : Option (Option Nat)))
      id "cachedir" "key" = none :=
  (cache_errors_c7 id "cachedir" "key" (fun _ => some none) 0 true).1 rfl

/-! ## Pagination (`get_all_submissions` / `get_author_papers_list`)

The stub record source holds `records` and answers a request at `offset`
with `limit` with the fixed page `records[offset : offset + limit]`
(`get_notes(invitation=..., limit=batch_size, offset=offset)`). -/

/-- Stub page source: `records[offset : offset + limit]`. -/
def fetchPage {α : Type} (records : List α) (limit offset : Nat) : List α :=
  (records.drop offset).take limit

/-- The `while True` pagination loop of
`ScoreHistogramGenerator.get_all_submissions` (identical in
`OpenReviewAuthorPapers.get_author_papers_list`): request a page; stop on
an empty page; otherwise extend the accumulator, advance the offset by the
batch size, and stop if the page was short.  The second component counts
the page requests issued. -/
def paginateGo {α : Type} (records : List α) (batchSize offset : Nat)
    (acc : List α) (requests : Nat) : List α × Nat :=
  if h1 : (fetchPage records batchSize offset).isEmpty then (acc, requests + 1)
  else if h2 : (fetchPage records batchSize offset).length < batchSize then
    (acc ++ fetchPage records batchSize offset, requests + 1)
  else
    paginateGo records batchSize (offset + batchSize)
      (acc ++ fetchPage records batchSize offset) (requests + 1)
termination_by records.length - offset
decreasing_by
  have h1' : fetchPage records batchSize offset ≠ [] := by
    simpa [List.isEmpty_iff] using h1
  simp only [fetchPage] at h1' h2
  have hbs : batchSize ≠ 0 := by
    rintro rfl
    exact h1' (by simp)
  have hoff : offset < records.length := by
    by_contra hc
    push_neg at hc
    exact h1' (by rw [List.drop_eq_nil_of_le hc]; simp)
  omega

/-- The `get_all_submissions` pagination at the source's batch size 1000. -/
def getAllSubmissionsLoop {α : Type} (records : List α) : List α × Nat :=
  paginateGo records 1000 0 [] 0

/-- Closed form of the pagination loop against the stub source: the
result is the accumulator followed by all remaining records, and the
number of page requests is `1 + (remaining records) / batchSize`. -/
theorem paginateGo_spec {α : Type} (records : List α) (batchSize : Nat)
    (hP : 0 < batchSize) :
    ∀ offset acc requests, paginateGo records batchSize offset acc requests =
      (acc ++ records.drop offset,
        requests + 1 + (records.length - offset) / batchSize) := by
  have main : ∀ n offset acc requests, records.length - offset ≤ n →
      paginateGo records batchSize offset acc requests =
        (acc ++ records.drop offset,
          requests + 1 + (records.length - offset) / batchSize) := by
    intro n
    induction n with
    | zero =>
      intro offset acc requests h
      have hle : records.length ≤ offset := by omega
      have hdrop : records.drop offset = [] := List.drop_eq_nil_of_le hle
      have h1 : (fetchPage records batchSize offset).isEmpty := by
        simp [fetchPage, hdrop]
      unfold paginateGo
      rw [dif_pos h1]
      have : records.length - offset = 0 := by omega
      simp [hdrop, this]
    | succ n ih =>
      intro offset acc requests h
      by_cases h1 : (fetchPage records batchSize offset).isEmpty
      · have h1e : fetchPage records batchSize offset = [] := by
          simpa [List.isEmpty_iff] using h1
        have hdrop : records.drop offset = [] := by
          rcases List.take_eq_nil_iff.mp h1e with hb | hd
          · omega
          · exact hd
        have hlen : records.length ≤ offset := by
          have := List.length_drop offset records
          rw [hdrop] at this
          simp at this
          omega
        unfold paginateGo
        rw [dif_pos h1]
        have h0 : records.length - offset = 0 := by omega
        simp [hdrop, h0]
      · by_cases h2 : (fetchPage records batchSize offset).length < batchSize
        · have hshort : (records.drop offset).length < batchSize := by
            have := List.length_take batchSize (records.drop offset)
            simp only [fetchPage] at h2
            rw [this] at h2
            omega
          have hall : fetchPage records batchSize offset = records.drop offset := by
            simp only [fetchPage]
            exact List.take_of_length_le (by omega)
          unfold paginateGo
          rw [dif_neg h1, dif_pos h2, hall]
          have hdiv : (records.length - offset) / batchSize = 0 := by
            apply Nat.div_eq_of_lt
            have := List.length_drop offset records
            omega
          simp [hdiv]
        · have hfull : (fetchPage records batchSize offset).length = batchSize := by
            have := List.length_take batchSize (records.drop offset)
            simp only [fetchPage] at h2 ⊢
            omega
          have hrem : batchSize ≤ records.length - offset := by
            have h2' := h2
            simp only [fetchPage, List.length_take] at h2'
            have := List.length_drop offset records
            omega
          have hmeas : records.length - (offset + batchSize) ≤ n := by omega
          unfold paginateGo
          rw [dif_neg h1, dif_neg h2]
          rw [ih (offset + batchSize) (acc ++ fetchPage records batchSize offset)
            (requests + 1) hmeas]
          simp only [Prod.mk.injEq]
          constructor
          · rw [List.append_assoc]
            congr 1
            simp only [fetchPage]
            rw [← List.drop_drop]
            exact List.take_append_drop batchSize (records.drop offset)
          · have hsub : records.length - (offset + batchSize) =
                (records.length - offset) - batchSize := by omega
            rw [hsub, Nat.div_eq_sub_div hP hrem]
            generalize (records.length - offset - batchSize) / batchSize = d
            omega
  intro offset acc requests
  exact main (records.length - offset) offset acc requests le_rfl

/-! ## Claim C3: pagination termination and request count (corrected)

The loop issues `N / P + 1` page requests: after `⌊N / P⌋` full pages it
still needs one more request to observe the short or empty page that
stops it.  This equals `⌈N / P⌉` exactly when `P` does not divide `N`;
when `P ∣ N` (including `N = 0`) the loop makes one request more than the
claimed `⌈N / P⌉`.  The accumulated result is exactly the `N` records in
their original order. -/

/-- Amended claim C3: for every stub source of `N` records and page size
`P > 0`, the pagination loop terminates after `N / P + 1` page requests
(which equals `⌈N / P⌉` whenever `P` does not divide `N`) and returns
exactly the `N` records in their original order, with no duplicates and
no reordering. -/
theorem pagination_count_c3 {α : Type} (records : List α) (P : Nat)
    (hP : 0 < P) :
    paginateGo records P 0 [] 0 = (records, records.length / P + 1)
    ∧ (records.length % P ≠ 0 →
        records.length / P + 1 = (records.length + P - 1) / P) := by
  constructor
  · rw [paginateGo_spec records P hP 0 [] 0]
    simp
    omega
  · intro hmod
    have hq := Nat.div_add_mod records.length P
    set q := records.length / P with hqdef
    set r := records.length % P with hrdef
    have hrlt : r < P := Nat.mod_lt _ hP
    have hrpos : 0 < r := Nat.pos_of_ne_zero hmod
    have harith : records.length + P - 1 = (r + P - 1) + P * q := by omega
    rw [harith, Nat.add_mul_div_left _ _ hP]
    have hone : (r + P - 1) / P = 1 := by
      apply Nat.div_eq_of_lt_le
      · omega
      · omega
    omega

/-- Witness for C3: a 3-record source paged at size 2 makes 2 requests
(`3 / 2 + 1 = 2 = ⌈3 / 2⌉`) and returns the records unchanged. -/
theorem pagination_count_c3_witness :
    paginateGo [(1 : Nat), 2, 3] 2 0 [] 0 = ([1, 2, 3], 2) := by
  have h := (pagination_count_c3 [(1 : Nat), 2, 3] 2 (by decide)).1
  exact h.trans (by norm_num)

/-- Counterexample to C3 as stated: a source holding exactly one record
paged at size 1 (`P ∣ N`) needs 2 page requests, not
`⌈1 / 1⌉ = (1 + 1 - 1) / 1 = 1`: the loop only stops after a second
request returns an empty page. -/
theorem pagination_count_c3_cex :
    (paginateGo [(0 : Nat)] 1 0 [] 0).2 = 2 ∧ (2 : Nat) ≠ (1 + 1 - 1) / 1 := by
  constructor
  · rw [paginateGo_spec [(0 : Nat)] 1 (by decide) 0 [] 0]
    norm_num
  · decide

/-! ## Area-chair assignment resolution
(`ScoreHistogramGenerator.get_ac_assigned_submissions`)

A submission is modelled by its paper number and reader list (the only
fields this code inspects); `fetchByNumber` stands for
`get_notes(..., number=paper_num)` on the submission invitation (the
source's per-paper `try/except` never fires for a total stub source);
`cached` is the content of the cache file for this user's key, gated
exactly as in `_load_cache`. -/

/-- A submission note, reduced to the fields the AC-resolution code
reads. -/
structure Paper where
  number : Nat
  readers : List String
deriving DecidableEq

/-- The accumulator of the `for ac_group in ac_groups` classification
loop: `assigned_paper_numbers`, `specific_ac_groups`, `pool_ac_groups`. -/
structure ACClass where
  numbers : Finset ℤ
  specific : List String
  pool : List String
deriving DecidableEq

/-- Method-1 test: `conference_id in g and '/Submission' in g and
'/Area_Chair_' in g`. -/
def isSpecificAcGroup (conf g : String) : Bool :=
  strIn conf g && strIn "/Submission" g && strIn "/Area_Chair_" g

/-- Method-2 test (the `elif`): `conference_id in g and '/Submission' in g
and g.endswith('/Area_Chairs')`. -/
def isPoolAcGroup (conf g : String) : Bool :=
  strIn conf g && strIn "/Submission" g && strEndsWith g "/Area_Chairs"

/-- Paper-number parse: the segment after the first occurrence of the
submission marker up to the next slash, fed to Python `int`; a failed parse
(`ValueError`) giving `none` (the source's `pass`).  `afterFirst` keeps
everything after the first `'/Submission'`; since a second occurrence
would itself start with `'/'`, taking characters up to the first `'/'`
agrees with Python's split. -/
def paperNumOf (g : String) : Option Int :=
  match afterFirst "/Submission".toList g.toList with
  | none => none
  | some rest => pyInt (rest.takeWhile (fun c => c ≠ '/'))

/-- One iteration of the classification loop. -/
def classifyStep (conf : String) (st : ACClass) (g : String) : ACClass :=
  if isSpecificAcGroup conf g then
    { numbers :=
        match paperNumOf g with
        | some n => insert n st.numbers
        | none => st.numbers
      specific := st.specific ++ [g]
      pool := st.pool }
  else if isPoolAcGroup conf g then
    { st with pool := st.pool ++ [g] }
  else st

/-- The whole classification loop over the user's AC groups. -/
def classifyAcGroups (conf : String) (gs : List String) : ACClass :=
  gs.foldl (classifyStep conf) ⟨∅, [], []⟩

/-- Model of `sorted(assigned_paper_numbers)`. -/
def sortNumbers (s : Finset ℤ) : List ℤ :=
  s.sort (· ≤ ·)

/-- Fallback predicate: the paper's reader list contains
`f'{conf}/Submission{paper.number}/Area_Chairs'` and some pool group the
user belongs to. -/
def acPoolFilter (conf : String) (pool : List String) (p : Paper) : Bool :=
  p.readers.contains (conf ++ "/Submission" ++ toString p.number ++ "/Area_Chairs")
    && pool.any (fun g => p.readers.contains g)

/-- Strategy selection and execution: filter the user's groups to those
containing `'Area_Chair'`, classify them, then either fetch each assigned
paper number (Method 1, preferred whenever a specific-assignment group
was found) or filter all submissions by reader membership (Method 2). -/
def resolveStrategy (conf : String) (userGroups : List String)
    (fetchByNumber : ℤ → List Paper) (allSubs : List Paper) : List Paper :=
  let acGroups := userGroups.filter (fun g => strIn "Area_Chair" g)
  let cls := classifyAcGroups conf acGroups
  if cls.specific.length > 0 then
    (sortNumbers cls.numbers).flatMap fetchByNumber
  else
    allSubs.filter (acPoolFilter conf cls.pool)

/-- Model of `get_ac_assigned_submissions`: cached value (gated as `_load_cache`)
returned as-is; otherwise the empty-members and not-a-member guards
return `[]` before any cache write; otherwise the resolved submissions
are computed and saved.  The second component records the `_save_cache`
calls performed. -/
def getAcAssigned (useCache refreshCache : Bool) (cached : Option (List Paper))
    (conf profileId : String) (acMembers userGroups : List String)
    (fetchByNumber : ℤ → List Paper) (allSubs : List Paper) :
    List Paper × List (List Paper) :=
  match (if !useCache || refreshCache then none else cached) with
  | some d => (d, [])
  | none =>
    if acMembers.isEmpty then ([], [])
    else if !(acMembers.contains profileId) then ([], [])
    else
      let subs := resolveStrategy conf userGroups fetchByNumber allSubs
      (subs, [subs])

/-! ### Substring lemmas -/

/-- The empty sequence occurs in every sequence. -/
theorem seqHas_nil (hay : List Char) : seqHas [] hay = true := by
  cases hay <;> simp [seqHas, seqLeads]

/-- Being an initial segment is transitive. -/
theorem seqLeads_trans : ∀ {a b c : List Char},
    seqLeads a b = true → seqLeads b c = true → seqLeads a c = true := by
  intro a
  induction a with
  | nil => intro b c _ _; simp [seqLeads]
  | cons x xs ih =>
    intro b c hab hbc
    cases b with
    | nil => simp [seqLeads] at hab
    | cons y ys =>
      cases c with
      | nil => simp [seqLeads] at hbc
      | cons z zs =>
        simp only [seqLeads, Bool.and_eq_true, beq_iff_eq] at hab hbc ⊢
        exact ⟨hab.1.trans hbc.1, ih hab.2 hbc.2⟩

/-- An initial segment occurs as a subsequence. -/
theorem seqHas_of_seqLeads {m hay : List Char}
    (h : seqLeads m hay = true) : seqHas m hay = true := by
  cases hay with
  | nil => simpa [seqHas] using h
  | cons c t => simp [seqHas, h]

/-- Occurrence inside an initial segment lifts to the whole sequence. -/
theorem seqHas_of_leads_of_seqHas : ∀ {n hay m : List Char},
    seqLeads n hay = true → seqHas m n = true → seqHas m hay = true := by
  intro n
  induction n with
  | nil =>
    intro hay m _ hm
    have hmnil : m = [] := by
      cases m with
      | nil => rfl
      | cons a as => simp [seqHas, seqLeads] at hm
    subst hmnil
    exact seqHas_nil hay
  | cons x xs ih =>
    intro hay m hlead hm
    cases hay with
    | nil => simp [seqLeads] at hlead
    | cons y ys =>
      simp only [seqLeads, Bool.and_eq_true, beq_iff_eq] at hlead
      simp only [seqHas, Bool.or_eq_true] at hm
      rcases hm with hm | hm
      · apply seqHas_of_seqLeads
        have : seqLeads (x :: xs) (y :: ys) = true := by
          simp [seqLeads, hlead.1, hlead.2]
        exact seqLeads_trans hm this
      · have := ih hlead.2 hm
        simp [seqHas, this]

/-- Occurrence is transitive: if `n` occurs in `hay` and `m` occurs in
`n`, then `m` occurs in `hay`. -/
theorem seqHas_trans : ∀ {hay n m : List Char},
    seqHas n hay = true → seqHas m n = true → seqHas m hay = true := by
  intro hay
  induction hay with
  | nil =>
    intro n m hn hm
    have hnnil : n = [] := by
      cases n with
      | nil => rfl
      | cons a as => simp [seqHas, seqLeads] at hn
    subst hnnil
    exact hm
  | cons c t ih =>
    intro n m hn hm
    simp only [seqHas, Bool.or_eq_true] at hn
    rcases hn with hn | hn
    · exact seqHas_of_leads_of_seqHas hn hm
    · have := ih hn hm
      simp [seqHas, this]

/-- A group matching Method 1 necessarily contains `'Area_Chair'` and so
survives the `ac_groups` filter. -/
theorem specific_has_area_chair (conf g : String)
    (h : isSpecificAcGroup conf g = true) : strIn "Area_Chair" g = true := by
  have h3 : strIn "/Area_Chair_" g = true := by
    simp only [isSpecificAcGroup, Bool.and_eq_true] at h
    exact h.2
  exact seqHas_trans h3 (by decide)

/-! ### Classification loop in closed form -/

/-- The classification loop, in closed form: the collected paper numbers
are those parsed from the Method-1 groups, the specific and pool lists are
the corresponding filters in order. -/
theorem classify_foldl (conf : String) : ∀ (gs : List String) (st : ACClass),
    List.foldl (classifyStep conf) st gs =
      { numbers := st.numbers ∪
          ((gs.filter (fun g => isSpecificAcGroup conf g)).filterMap
            paperNumOf).toFinset
        specific := st.specific ++ gs.filter (fun g => isSpecificAcGroup conf g)
        pool := st.pool ++ gs.filter
            (fun g => !isSpecificAcGroup conf g && isPoolAcGroup conf g) } := by
  intro gs
  induction gs with
  | nil =>
    intro st
    obtain ⟨ns, sp, pl⟩ := st
    simp
  | cons g gs ih =>
    intro st
    rw [List.foldl_cons, ih (classifyStep conf st g)]
    by_cases h1 : isSpecificAcGroup conf g = true
    · cases hpn : paperNumOf g with
      | none =>
        simp [classifyStep, h1, hpn, List.filter_cons, List.filterMap_cons]
      | some n =>
        simp [classifyStep, h1, hpn, List.filter_cons, List.filterMap_cons,
          List.toFinset_cons, Finset.insert_union, Finset.union_insert]
    · by_cases h2 : isPoolAcGroup conf g = true
      · simp [classifyStep, h1, h2, List.filter_cons]
      · simp [classifyStep, h1, h2, List.filter_cons]

/-- Filtering the Method-1 groups out of the `'Area_Chair'`-filtered group
list is the same as filtering them out of the full group list. -/
theorem acGroups_filter_specific (conf : String) (gs : List String) :
    (gs.filter (fun g => strIn "Area_Chair" g)).filter
        (fun g => isSpecificAcGroup conf g)
      = gs.filter (fun g => isSpecificAcGroup conf g) := by
  rw [List.filter_filter]
  apply List.filter_congr
  intro g _
  by_cases h : isSpecificAcGroup conf g = true
  · simp [h, specific_has_area_chair conf g h]
  · simp [h]

/-! ## Claim C4: area-chair assignment resolution -/

/-- Claim C4: if some user group contains the conference id,
`'/Submission'` and `'/Area_Chair_'`, the specific-assignment strategy
runs and the assigned paper-number set is exactly the set of integers
parsed from the segment between `'/Submission'` and the next `'/'` of
the Method-1 groups; if no such group exists, the pool-membership
fallback filtering all submissions by reader-list membership runs
instead. -/
theorem ac_resolution_c4 (conf : String) (userGroups : List String)
    (fetchByNumber : ℤ → List Paper) (allSubs : List Paper) :
    ((∃ g ∈ userGroups, isSpecificAcGroup conf g = true) →
      (classifyAcGroups conf
          (userGroups.filter (fun g => strIn "Area_Chair" g))).numbers
        = ((userGroups.filter (fun g => isSpecificAcGroup conf g)).filterMap
            paperNumOf).toFinset
      ∧ resolveStrategy conf userGroups fetchByNumber allSubs
        = (sortNumbers (((userGroups.filter
            (fun g => isSpecificAcGroup conf g)).filterMap
              paperNumOf).toFinset)).flatMap fetchByNumber)
    ∧ ((∀ g ∈ userGroups, isSpecificAcGroup conf g = false) →
      resolveStrategy conf userGroups fetchByNumber allSubs
        = allSubs.filter (acPoolFilter conf
            (classifyAcGroups conf
              (userGroups.filter (fun g => strIn "Area_Chair" g))).pool)) := by
  have hcls := classify_foldl conf
    (userGroups.filter (fun g => strIn "Area_Chair" g)) ⟨∅, [], []⟩
  have hff := acGroups_filter_specific conf userGroups
  have hnumbers : (classifyAcGroups conf
      (userGroups.filter (fun g => strIn "Area_Chair" g))).numbers
      = ((userGroups.filter (fun g => isSpecificAcGroup conf g)).filterMap
          paperNumOf).toFinset := by
    unfold classifyAcGroups
    rw [hcls, hff]
    simp
  have hspec : (classifyAcGroups conf
      (userGroups.filter (fun g => strIn "Area_Chair" g))).specific
      = userGroups.filter (fun g => isSpecificAcGroup conf g) := by
    unfold classifyAcGroups
    rw [hcls, hff]
    simp
  constructor
  · intro hex
    have hne : userGroups.filter (fun g => isSpecificAcGroup conf g) ≠ [] := by
      intro hnil
      obtain ⟨g, hg, hgp⟩ := hex
      have := List.filter_eq_nil_iff.mp hnil g hg
      simp [hgp] at this
    refine ⟨hnumbers, ?_⟩
    unfold resolveStrategy
    rw [if_pos]
    · rw [hnumbers]
    · rw [hspec]
      have := List.length_pos.mpr hne
      omega
  · intro hall
    have hnil : userGroups.filter (fun g => isSpecificAcGroup conf g) = [] := by
      apply List.filter_eq_nil_iff.mpr
      intro g hg
      simp [hall g hg]
    unfold resolveStrategy
    rw [if_neg]
    rw [hspec, hnil]
    simp

/-- Witness for C4 at the spec's example: a single group
`conf/Submission7/Area_Chair_abc` resolves the assignment set to `{7}`
and the specific-assignment fetch runs. -/
theorem ac_resolution_c4_witness :
    (classifyAcGroups "conf" (["conf/Submission7/Area_Chair_abc"].filter
        (fun g => strIn "Area_Chair" g))).numbers = ({7} : Finset ℤ)
    ∧ resolveStrategy "conf" ["conf/Submission7/Area_Chair_abc"]
        (fun _ => []) [] = [] := by
  have hflat : ∀ l : List ℤ, l.flatMap (fun _ => ([] : List Paper)) = [] := by
    intro l
    induction l with
    | nil => rfl
    | cons a t ih => simp [List.flatMap_cons, ih]
  have h := (ac_resolution_c4 "conf" ["conf/Submission7/Area_Chair_abc"]
      (fun _ => []) []).1
    ⟨"conf/Submission7/Area_Chair_abc", by decide, by decide⟩
  exact ⟨h.1.trans (by decide), h.2.trans (hflat _)⟩

/-! ## Claim C9: cache guard in `get_ac_assigned_submissions` (corrected)

As written, the claim fails: when caching is enabled, no refresh is
forced and a cache file for the user's key exists, the function returns
the cached submissions *before* the Area_Chairs-group checks run, so an
empty or non-containing member list does not force an empty result.  On
a cache miss the claim is exact: both guards return `[]` without saving,
and a save only happens past both guards. -/

/-- Amended claim C9: on a cache miss (caching off, refresh forced, or no
cached value), `get_ac_assigned_submissions` returns `[]` and writes no
cache entry whenever the Area_Chairs group is empty or the user's profile
id is not among its members; and a cache write only ever happens when the
gate missed, the member list is non-empty and contains the profile id. -/
theorem ac_cache_guard_c9 (useCache refreshCache : Bool)
    (cached : Option (List Paper)) (conf profileId : String)
    (acMembers userGroups : List String) (fetchByNumber : ℤ → List Paper)
    (allSubs : List Paper) :
    ((useCache = false ∨ refreshCache = true ∨ cached = none) →
      (acMembers = [] ∨ acMembers.contains profileId = false) →
      getAcAssigned useCache refreshCache cached conf profileId acMembers
        userGroups fetchByNumber allSubs = ([], []))
    ∧ ((getAcAssigned useCache refreshCache cached conf profileId acMembers
        userGroups fetchByNumber allSubs).2 ≠ [] →
      acMembers ≠ [] ∧ acMembers.contains profileId = true) := by
  constructor
  · intro hmiss hguard
    have hgate : (if !useCache || refreshCache then none else cached)
        = (none : Option (List Paper)) := by
      rcases hmiss with h | h | h <;> simp [h]
    unfold getAcAssigned
    rw [hgate]
    rcases hguard with h | h
    · simp [h]
    · have h' : profileId ∉ acMembers := by simpa using h
      by_cases hm : acMembers.isEmpty
      · simp [hm]
      · simp [hm, h']
  · intro hne
    unfold getAcAssigned at hne
    cases hgate : (if !useCache || refreshCache then none else cached) with
    | some d =>
      rw [hgate] at hne
      simp at hne
    | none =>
      rw [hgate] at hne
      by_cases h1 : acMembers.isEmpty
      · simp [h1] at hne
      · by_cases h2 : acMembers.contains profileId
        · refine ⟨?_, h2⟩
          intro hc
          subst hc
          simp at h1
        · have h2' : profileId ∉ acMembers := by simpa using h2
          simp [h1, h2'] at hne

/-- Witness for C9 at a concrete cache miss with an empty member list:
the result is empty and nothing is saved. -/
theorem ac_cache_guard_c9_witness :
    getAcAssigned true false none "conf" "~user1" [] []
      (fun _ => []) [] = ([], []) :=
  (ac_cache_guard_c9 true false none "conf" "~user1" [] []
    (fun _ => []) []).1 (Or.inr (Or.inr rfl)) (Or.inl rfl)

/-- Counterexample to C9 as stated: with caching enabled, no refresh and
a cached entry present, the function returns the cached non-empty list
even though the Area_Chairs member list is empty. -/
theorem ac_cache_guard_c9_cex :
    (getAcAssigned true false (some [⟨1, []⟩]) "conf" "~user1" [] []
      (fun _ => []) []).1 = [⟨1, []⟩]
    ∧ ([(⟨1, []⟩ : Paper)] ≠ []) := by
  exact ⟨rfl, by simp⟩

/-! ## Score extraction (`ScoreHistogramGenerator.extract_average_scores`)

A submission carries its number, venue string and forum notes; the note
type `ν` is abstract, with the configured extractor
(`CONFERENCE_INFO['RATING_EXTRACTOR']` or the final-rating variant,
whichever `score_type` selects) and the invitation accessor passed in.
Scores are rationals (exact stand-ins for Python floats). -/

/-- A submission, reduced to the fields `extract_average_scores` reads. -/
structure Submission (ν : Type) where
  number : Nat
  venue : String
  forumNotes : List ν

/-- The review invitation the notes are filtered by (membership in
`note.invitations`, not substring). -/
def reviewInvitation (conf : String) (num : Nat) : String :=
  conf ++ "/Submission" ++ toString num ++ "/-/Official_Review"

/-- The per-paper filtered score list: extract a rating from each review
note and drop the absent (`None`) results. -/
def filteredScores {ν : Type} (conf : String) (invitationsOf : ν → List String)
    (ext : ν → Option ℚ) (s : Submission ν) : List ℚ :=
  ((s.forumNotes.filter (fun n =>
    (invitationsOf n).contains (reviewInvitation conf s.number))).map ext).reduceOption

/-- The `for paper in submissions` loop of `extract_average_scores`:
skip withdrawn papers when requested (substring test on the venue),
skip papers with no reviews, skip papers with no valid scores, otherwise
append `sum(scores) / len(scores)`. -/
def extractScoresLoop {ν : Type} (conf : String) (invitationsOf : ν → List String)
    (ext : ν → Option ℚ) (excludeWithdrawn : Bool) : List (Submission ν) → List ℚ
  | [] => []
  | s :: rest =>
    if excludeWithdrawn && strIn "Withdrawn" s.venue then
      extractScoresLoop conf invitationsOf ext excludeWithdrawn rest
    else
      let reviews := s.forumNotes.filter (fun n =>
        (invitationsOf n).contains (reviewInvitation conf s.number))
      if reviews.isEmpty then
        extractScoresLoop conf invitationsOf ext excludeWithdrawn rest
      else
        let scores := (reviews.map ext).reduceOption
        if scores.isEmpty then
          extractScoresLoop conf invitationsOf ext excludeWithdrawn rest
        else
          (scores.sum / (scores.length : ℚ))
            :: extractScoresLoop conf invitationsOf ext excludeWithdrawn rest

/-- Model of `extract_average_scores`: the cached score list (gated as
`_load_cache`) is returned as-is; otherwise the extraction loop runs. -/
def extractAverageScores {ν : Type} (useCache refreshCache : Bool)
    (cached : Option (List ℚ)) (conf : String) (invitationsOf : ν → List String)
    (ext : ν → Option ℚ) (excludeWithdrawn : Bool)
    (subs : List (Submission ν)) : List ℚ :=
  match (if !useCache || refreshCache then none else cached) with
  | some d => d
  | none => extractScoresLoop conf invitationsOf ext excludeWithdrawn subs

/-! ## Claim C2: per-paper average score -/

/-- Claim C2: on a cache miss, `extract_average_scores` produces one
entry per non-skipped submission with a non-empty filtered score list,
namely exactly the arithmetic mean `sum / count` of those scores; a
submission whose filtered score list is empty (in particular one with no
reviews) contributes nothing, and no division by zero can occur since the
empty case never reaches the division. -/
theorem extract_average_scores_c2 {ν : Type} (useCache refreshCache : Bool)
    (cached : Option (List ℚ)) (conf : String) (invitationsOf : ν → List String)
    (ext : ν → Option ℚ) (excludeWithdrawn : Bool) (subs : List (Submission ν))
    (hmiss : useCache = false ∨ refreshCache = true ∨ cached = none) :
    extractAverageScores useCache refreshCache cached conf invitationsOf ext
        excludeWithdrawn subs
      = subs.filterMap (fun s =>
          if excludeWithdrawn && strIn "Withdrawn" s.venue then none
          else if filteredScores conf invitationsOf ext s = [] then none
          else some ((filteredScores conf invitationsOf ext s).sum
            / ((filteredScores conf invitationsOf ext s).length : ℚ))) := by
  have hgate : (if !useCache || refreshCache then none else cached)
      = (none : Option (List ℚ)) := by
    rcases hmiss with h | h | h <;> simp [h]
  unfold extractAverageScores
  rw [hgate]
  show extractScoresLoop conf invitationsOf ext excludeWithdrawn subs = _
  induction subs with
  | nil => rfl
  | cons s rest ih =>
    by_cases h1 : excludeWithdrawn && strIn "Withdrawn" s.venue
    · simp only [extractScoresLoop, h1, if_true, List.filterMap_cons]
      simpa [h1] using ih
    · by_cases h2 : (s.forumNotes.filter (fun n =>
          (invitationsOf n).contains (reviewInvitation conf s.number))).isEmpty
      · have hfs : filteredScores conf invitationsOf ext s = [] := by
          have hrev : List.filter (fun n =>
              (invitationsOf n).contains (reviewInvitation conf s.number))
                s.forumNotes = [] := by
            simpa [List.isEmpty_iff] using h2
          unfold filteredScores
          rw [hrev]
          rfl
        simp only [extractScoresLoop, List.filterMap_cons]
        rw [if_neg h1, if_pos h2]
        simpa [h1, hfs] using ih
      · by_cases h3 : ((s.forumNotes.filter (fun n =>
            (invitationsOf n).contains (reviewInvitation conf s.number))).map
              ext).reduceOption.isEmpty
        · have hfs : filteredScores conf invitationsOf ext s = [] := by
            simpa [filteredScores, List.isEmpty_iff] using h3
          simp only [extractScoresLoop, List.filterMap_cons]
          rw [if_neg h1, if_neg h2, if_pos h3]
          simpa [h1, hfs] using ih
        · have hfs : filteredScores conf invitationsOf ext s ≠ [] := by
            simpa [filteredScores, List.isEmpty_iff] using h3
          simp only [extractScoresLoop, List.filterMap_cons]
          rw [if_neg h1, if_neg h2, if_neg h3, ih]
          have hunfold : ((s.forumNotes.filter (fun n =>
              (invitationsOf n).contains (reviewInvitation conf s.number))).map
                ext).reduceOption = filteredScores conf invitationsOf ext s := rfl
          rw [hunfold]
          have hfa : (if (excludeWithdrawn && strIn "Withdrawn" s.venue) = true
                then (none : Option ℚ)
              else if filteredScores conf invitationsOf ext s = [] then none
              else some ((filteredScores conf invitationsOf ext s).sum
                / ((filteredScores conf invitationsOf ext s).length : ℚ)))
              = some ((filteredScores conf invitationsOf ext s).sum
                / ((filteredScores conf invitationsOf ext s).length : ℚ)) := by
            rw [if_neg h1, if_neg hfs]
          rw [hfa]

/-- Witness for C2: two reviews scored 4 and 6 average to 5. -/
theorem extract_average_scores_c2_witness :
    extractAverageScores true false none "c"
      (fun _ => [reviewInvitation "c" 1]) some false
      [⟨1, "v", [(4 : ℚ), 6]⟩] = [5] := by
  have h := extract_average_scores_c2 true false none "c"
    (fun _ => [reviewInvitation "c" 1]) some false
    [⟨1, "v", [(4 : ℚ), 6]⟩] (Or.inr (Or.inr rfl))
  rw [h]
  norm_num [filteredScores, List.reduceOption, List.filterMap_cons]
  rw [if_neg]
  intro hfa
  exact (hfa 4 (by simp)) rfl

/-! ## Histogram binning (`ScoreHistogramGenerator.generate_histogram`)

Only the bin-selection logic is embedded (plotting is out of scope).
`npArange` models `np.arange(start, stop, step)` for positive step by its
documented semantics in exact arithmetic: the values `start + step * k`
for `0 ≤ k < ⌈(stop - start) / step⌉`; the counterexample below uses only
binary-representable values, where float64 `np.arange` agrees exactly. -/

/-- Model of `np.min` on a non-empty array (`0` is an unreachable placeholder:
`generate_histogram` returns before binning when `scores` is empty). -/
def npMin : List ℚ → ℚ
  | [] => 0
  | x :: xs => xs.foldl min x

/-- Model of `np.max` on a non-empty array. -/
def npMax : List ℚ → ℚ
  | [] => 0
  | x :: xs => xs.foldl max x

/-- Model of `np.arange(start, stop, step)` for positive `step`. -/
def npArange (start stop step : ℚ) : List ℚ :=
  (List.range (⌈(stop - start) / step⌉).toNat).map
    (fun k : ℕ => start + step * (k : ℚ))

/-- What `generate_histogram` passes to `ax.hist(bins=...)`. -/
inductive Bins where
  | edges : List ℚ → Bins
  | auto : Bins
  | count : ℕ → Bins
deriving DecidableEq

/-- Bin selection: an explicit `--bins N` is passed through; otherwise
0.5-wide bins from `min - 0.25` when the score range is at most 5, else
the plotting library's `'auto'` mode. -/
def chooseBins (bins : Option ℕ) (scores : List ℚ) : Bins :=
  match bins with
  | some n => Bins.count n
  | none =>
    if npMax scores - npMin scores ≤ 5 then
      Bins.edges (npArange (npMin scores - 1/4) (npMax scores + 1/2) (1/2))
    else Bins.auto

/-- A left fold of `min` only decreases the fold seed. -/
theorem foldl_min_le (xs : List ℚ) : ∀ x : ℚ, xs.foldl min x ≤ x := by
  induction xs with
  | nil => intro x; exact le_refl x
  | cons a t ih => intro x; exact (ih (min x a)).trans (min_le_left x a)

/-- A left fold of `max` only increases the fold seed. -/
theorem le_foldl_max (xs : List ℚ) : ∀ x : ℚ, x ≤ xs.foldl max x := by
  induction xs with
  | nil => intro x; exact le_refl x
  | cons a t ih => intro x; exact (le_max_left x a).trans (ih (max x a))

/-- On a non-empty score list the minimum is at most the maximum. -/
theorem npMin_le_npMax (scores : List ℚ) (h : scores ≠ []) :
    npMin scores ≤ npMax scores := by
  cases scores with
  | nil => exact absurd rfl h
  | cons x xs => exact (foldl_min_le xs x).trans (le_foldl_max xs x)

/-! ## Claim C8: histogram bin edges (corrected)

As stated the claim fails: `np.arange(min - 0.25, max + 0.5, 0.5)` stops
strictly below the stop value, and when `2 * (max - min)` is a half-odd
integer (e.g. `max - min = 0.25`) the last edge equals exactly `max`,
short of the claimed `max + 0.25`.  What does hold: the edges are the
evenly spaced sequence starting at `min - 0.25` with step `0.5`, and the
last edge lies in `[max, max + 0.5)`. -/

/-- Amended claim C8: for a non-empty score list whose range is at most 5
(and no explicit bin count), the bin edges are the evenly spaced sequence
`min - 0.25 + 0.5 * k`, `0 ≤ k < ⌈2 * (max - min) + 3/2⌉`, whose last
element is at least `max` (but possibly below `max + 0.25`) and below
`max + 0.5`; for ranges above 5, bin selection is delegated to the
plotting library's `'auto'` mode. -/
theorem histogram_bins_c8 (scores : List ℚ) (hne : scores ≠ []) :
    (npMax scores - npMin scores ≤ 5 →
      chooseBins none scores
        = Bins.edges (npArange (npMin scores - 1/4) (npMax scores + 1/2) (1/2))
      ∧ ∃ nedges : ℕ,
          npArange (npMin scores - 1/4) (npMax scores + 1/2) (1/2)
            = (List.range nedges).map
                (fun k : ℕ => (npMin scores - 1/4) + (1/2) * (k : ℚ))
          ∧ 1 ≤ nedges
          ∧ (npArange (npMin scores - 1/4) (npMax scores + 1/2) (1/2)).getLast?
            = some ((npMin scores - 1/4) + (1/2) * ((nedges - 1 : ℕ) : ℚ))
          ∧ npMax scores ≤ (npMin scores - 1/4) + (1/2) * ((nedges - 1 : ℕ) : ℚ)
          ∧ (npMin scores - 1/4) + (1/2) * ((nedges - 1 : ℕ) : ℚ)
              < npMax scores + 1/2)
    ∧ (5 < npMax scores - npMin scores → chooseBins none scores = Bins.auto) := by
  have hmm : npMin scores ≤ npMax scores := npMin_le_npMax scores hne
  constructor
  · intro hle
    refine ⟨by simp [chooseBins, hle], ?_⟩
    set mn := npMin scores with hmn
    set mx := npMax scores with hmx
    have harg : ((mx + 1/2) - (mn - 1/4)) / (1/2) = 2 * (mx - mn) + 3/2 := by
      ring
    set c : ℤ := ⌈((mx + 1/2) - (mn - 1/4)) / (1/2)⌉ with hc
    have hlow : ((mx + 1/2) - (mn - 1/4)) / (1/2) ≤ (c : ℚ) := Int.le_ceil _
    have hhigh : (c : ℚ) < ((mx + 1/2) - (mn - 1/4)) / (1/2) + 1 :=
      Int.ceil_lt_add_one _
    have hcge : (2 : ℤ) ≤ c := by
      have h1 : (1 : ℚ) < (c : ℚ) := by
        rw [harg] at hlow
        linarith
      have h2 : (1 : ℤ) < c := by exact_mod_cast h1
      omega
    have htn : c.toNat = (c.toNat - 1) + 1 := by omega
    have hcast : ((c.toNat - 1 : ℕ) : ℚ) = (c : ℚ) - 1 := by
      have h1 : ((c.toNat : ℕ) : ℚ) = (c : ℚ) := by
        exact_mod_cast congrArg (Int.cast : ℤ → ℚ) (Int.toNat_of_nonneg (by omega))
      rw [Nat.cast_sub (by omega), h1]
      norm_num
    refine ⟨c.toNat, rfl, by omega, ?_, ?_, ?_⟩
    · unfold npArange
      rw [← hc, htn, List.range_succ, List.map_append]
      simp [htn.symm]
    · rw [hcast]
      rw [harg] at hlow
      linarith
    · rw [hcast]
      rw [harg] at hhigh
      linarith
  · intro hgt
    simp [chooseBins, not_le.mpr hgt]

/-- Witness for C8: a single score `3` has range `0 ≤ 5` and gets the
fixed-width edges `[2.75, 3.25]`, whose last element `3.25` is at least
the maximum `3`. -/
theorem histogram_bins_c8_witness :
    chooseBins none [(3 : ℚ)]
      = Bins.edges (npArange (npMin [(3 : ℚ)] - 1/4) (npMax [(3 : ℚ)] + 1/2) (1/2))
    ∧ npMax [(3 : ℚ)] - npMin [(3 : ℚ)] ≤ 5 := by
  have h := (histogram_bins_c8 [(3 : ℚ)] (List.cons_ne_nil _ _)).1
    (by norm_num [npMax, npMin])
  exact ⟨h.1, by norm_num [npMax, npMin]⟩

/-- Counterexample to C8 as stated: for scores `[1, 1.25]` (range `0.25`,
well within `[1, 5]`), the computed edges are `[0.75, 1.25]`: the last
edge equals the maximum `1.25` and falls strictly short of
`max + 0.25 = 1.5`. -/
theorem histogram_bins_c8_cex :
    chooseBins none [(1 : ℚ), 5/4] = Bins.edges [3/4, 5/4]
    ∧ [(3 : ℚ)/4, 5/4].getLast? = some (5/4)
    ∧ (5 : ℚ)/4 < npMax [(1 : ℚ), 5/4] + 1/4 := by
  have hmin : npMin [(1 : ℚ), 5/4] = 1 := by
    simp [npMin]
    norm_num [min_def]
  have hmax : npMax [(1 : ℚ), 5/4] = 5/4 := by
    simp [npMax]
    norm_num [max_def]
  refine ⟨?_, by simp, by rw [hmax]; norm_num⟩
  have hceil : (⌈(((5 : ℚ)/4 + 1/2) - (1 - 1/4)) / (1/2)⌉ : ℤ) = 2 := by
    norm_num
  simp only [chooseBins, hmin, hmax]
  rw [if_pos (by norm_num)]
  congr 1
  unfold npArange
  rw [hceil]
  simp [List.range_succ]
  norm_num

/-! ## Spreadsheet synchronizer (`utils/gsheet.py`, `GSheetWithHeader`)

The external `GSheetManager` collaborator supplies `local_sheet_values`
(the local snapshot, a list of rows), the cached `headers` (its first
row) and `_set_buffer_cells`; per the spec these stage `(row, column,
value)` cell updates in an in-memory buffer flushed once per decorated
operation, so the buffer is modelled as the list of staged writes in
order and the snapshot is unchanged while an operation runs.  Uncaught
Python exceptions (`ValueError` from `list.index`, `IndexError` from
out-of-range indexing or assignment) are modelled as `none` / `.error`;
the `except` clauses of the source catch exactly what they catch. -/

/-- A staged buffer write: `(python_row_idx, python_col_idx, value)`. -/
abbrev Cell := Nat × Nat × String

/-- Uncaught Python exceptions reachable in `write_cells`. -/
inductive PyErr where
  | valueError
  | indexError
deriving DecidableEq

/-- Python list assignment `l[i] = v`: `IndexError` (`none`) when `i` is
out of range. -/
def setAt {α : Type} (l : List α) (i : Nat) (v : α) : Option (List α) :=
  if i < l.length then some (l.set i v) else none

/-- The `for header_idx, header_name in enumerate(self.headers)` copy
loop of `_write_headers`: writes the existing headers into the fresh
placeholder array at their original positions. -/
def copyLoop : List (Option String) → List String → Nat → Option (List (Option String))
  | arr, [], _ => some arr
  | arr, h :: t, i =>
    match setAt arr i (some h) with
    | none => none
    | some arr2 => copyLoop arr2 t (i + 1)

/-- The `for header_idx, header_name in enumerate(headers)` loop of
`_write_headers`, carrying the `_headers` array, the enumerate position,
`current_header_idx` and the staged-cell buffer.  In the non-overwrite
branch, a header already present is rewritten in place at its original
index (no cell staged); a new header is staged and placed at
`current_header_idx`, which then advances. -/
def whLoop (overwrite : Bool) (startRow : Nat) (existing : List String) :
    List String → List (Option String) → Nat → Nat → List Cell →
    Option (List (Option String) × List Cell)
  | [], arr, _, _, buf => some (arr, buf)
  | h :: rest, arr, pos, curIdx, buf =>
    if overwrite then
      match setAt arr pos (some h) with
      | none => none
      | some arr2 =>
        whLoop overwrite startRow existing rest arr2 (pos + 1) curIdx
          (buf ++ [(startRow, pos, h)])
    else
      if !existing.isEmpty && existing.contains h then
        match pyIndex existing h with
        | none => none
        | some origIdx =>
          match setAt arr origIdx (some h) with
          | none => none
          | some arr2 =>
            whLoop overwrite startRow existing rest arr2 (pos + 1) curIdx buf
      else
        match setAt arr curIdx (some h) with
        | none => none
        | some arr2 =>
          whLoop overwrite startRow existing rest arr2 (pos + 1) (curIdx + 1)
            (buf ++ [(startRow, curIdx, h)])

/-- Model of `GSheetWithHeader._write_headers`.  `existing` is the current header
row (`self.headers`; the empty list doubles for Python's `None`, whose
only extra behaviour — a `TypeError` on a truly headerless sheet in the
non-overwrite branch — is outside the claims, which presuppose an
existing header row).  Returns `(current_row_idx, _headers, staged
cells)`, or `none` when a list assignment raises `IndexError`. -/
def writeHeadersCore (existing headers : List String) (startRow : Nat)
    (overwrite : Bool) : Option (Nat × List (Option String) × List Cell) :=
  let currentHeaderIdx := if existing.isEmpty then 0 else existing.length
  match (if overwrite then
          some (List.replicate headers.length (none : Option String))
        else
          copyLoop (List.replicate
            ((headers.toFinset ∪ existing.toFinset).card)
            (none : Option String)) existing 0) with
  | none => none
  | some arr =>
    match whLoop overwrite startRow existing headers arr 0 currentHeaderIdx [] with
    | none => none
    | some (arr2, buf) => some (startRow + 1, arr2, buf)

/-- One conjunct of the row-matching generator of `write_cells`:
`all(row[self.headers.index(k)] == v for k, v in where_.items())`,
short-circuiting at the first failed comparison; a condition key missing
from the headers raises `ValueError`, a row shorter than the looked-up
column raises `IndexError` (both uncaught there). -/
def condCheck (headers row : List String) :
    List (String × String) → Except PyErr Bool
  | [] => .ok true
  | (k, v) :: rest =>
    match pyIndex headers k with
    | none => .error .valueError
    | some i =>
      match row[i]? with
      | none => .error .indexError
      | some c => if c = v then condCheck headers row rest else .ok false

/-- Row search `next(i for i, row in enumerate(self.local_sheet_values) if all(...))`
scanning from index `i`; exhaustion (`StopIteration`, caught by the
source) is `.ok none`. -/
def rowFindFrom (headers : List String) (conds : List (String × String)) :
    List (List String) → Nat → Except PyErr (Option Nat)
  | [], _ => .ok none
  | row :: rest, i =>
    match condCheck headers row conds with
    | .error e => .error e
    | .ok true => .ok (some i)
    | .ok false => rowFindFrom headers conds rest (i + 1)

/-- Row location over the whole local snapshot. -/
def rowFind (headers : List String) (vals : List (List String))
    (conds : List (String × String)) : Except PyErr (Option Nat) :=
  rowFindFrom headers conds vals 0

/-- The `for col_header, value in what_.items()` loop of `write_cells`:
a column header missing from the headers is caught (`except ValueError`)
and skips only that column; otherwise the current cell value is read and
the new value is staged unless the cell is non-empty (Python truthiness
of a string), differs, and overwrite was not requested. -/
def processWhat (headers : List String) (vals : List (List String)) (ri : Nat)
    (overwrite : Bool) : List (String × String) → List Cell → Except PyErr (List Cell)
  | [], buf => .ok buf
  | (k, v) :: rest, buf =>
    match pyIndex headers k with
    | none => processWhat headers vals ri overwrite rest buf
    | some c =>
      match vals[ri]? with
      | none => .error .indexError
      | some row =>
        match row[c]? with
        | none => .error .indexError
        | some cur =>
          if cur ≠ "" ∧ cur ≠ v ∧ overwrite = false then
            processWhat headers vals ri overwrite rest buf
          else
            processWhat headers vals ri overwrite rest (buf ++ [(ri, c, v)])

/-- The `for where_, what_ in zip(where, what)` loop of `write_cells`:
a pair whose conditions match no row (`StopIteration`) is skipped with a
warning and processing continues. -/
def writeCellsGo (headers : List String) (vals : List (List String))
    (overwrite : Bool) :
    List (List (String × String) × List (String × String)) → List Cell →
    Except PyErr (List Cell)
  | [], buf => .ok buf
  | (conds, ups) :: rest, buf =>
    match rowFind headers vals conds with
    | .error e => .error e
    | .ok none => writeCellsGo headers vals overwrite rest buf
    | .ok (some ri) =>
      match processWhat headers vals ri overwrite ups buf with
      | .error e => .error e
      | .ok buf2 => writeCellsGo headers vals overwrite rest buf2

/-- Model of `GSheetWithHeader.write_cells(where, what, overwrite)`: `headers` is
the cached header row (`self.headers`), `vals` the local snapshot; the
result is the list of staged buffer writes, or the uncaught exception. -/
def writeCells (headers : List String) (vals : List (List String))
    (whr wht : List (List (String × String))) (overwrite : Bool) :
    Except PyErr (List Cell) :=
  writeCellsGo headers vals overwrite (whr.zip wht) []

/-! ### Header-reconciliation lemmas -/

/-- In-range list assignment succeeds. -/
theorem setAt_of_lt {α : Type} (l : List α) (i : Nat) (v : α)
    (h : i < l.length) : setAt l i v = some (l.set i v) := by
  simp [setAt, h]

/-- Writing the value a position already holds leaves the list unchanged. -/
theorem set_self {α : Type} : ∀ (l : List α) (i : Nat) (v : α),
    l[i]? = some v → l.set i v = l := by
  intro l
  induction l with
  | nil => intro i v h; simp at h
  | cons a t ih =>
    intro i v h
    cases i with
    | zero =>
      simp at h
      simp [h]
    | succ n =>
      simp at h
      simp [ih n v h]

/-- Lemma: `setAt` with the value already present succeeds and is the identity. -/
theorem setAt_same {α : Type} (l : List α) (i : Nat) (v : α)
    (h : l[i]? = some v) : setAt l i v = some l := by
  have hlt : i < l.length := by
    by_contra hc
    push_neg at hc
    rw [List.getElem?_eq_none hc] at h
    exact Option.noConfusion h
  rw [setAt_of_lt _ _ _ hlt, set_self l i v h]

/-- Assignment at the boundary of an append. -/
theorem set_boundary {α : Type} (A : List α) (b : α) (B : List α) (v : α) :
    (A ++ b :: B).set A.length v = A ++ v :: B := by
  rw [List.set_append]
  simp

/-- Variant of `set_boundary` with the index given as any term equal to the length
of the prefix. -/
theorem set_boundary' {α : Type} (A : List α) (b : α) (B : List α) (v : α)
    (n : Nat) (hn : n = A.length) : (A ++ b :: B).set n v = A ++ v :: B := by
  rw [hn]
  exact set_boundary A b B v

/-- Python `l.index(k)` returns the first index of a contained element, and the
element there is `k`. -/
theorem pyIndex_mem : ∀ (l : List String) (h : String),
    l.contains h = true → ∃ i, pyIndex l h = some i ∧ l[i]? = some h := by
  intro l
  induction l with
  | nil => intro h hc; simp at hc
  | cons x t ih =>
    intro h hc
    by_cases hx : x = h
    · exact ⟨0, by simp [pyIndex, hx], by simp [hx]⟩
    · have hct : t.contains h = true := by
        simp only [List.contains_cons, Bool.or_eq_true, beq_iff_eq] at hc
        rcases hc with hc | hc
        · exact absurd hc.symm hx
        · exact hc
      obtain ⟨i, hpi, hgi⟩ := ih h hct
      refine ⟨i + 1, ?_, by simpa using hgi⟩
      simp [pyIndex, hx, hpi]

/-- The existing-header copy loop fills the placeholder array in order
when it is long enough. -/
theorem copyLoop_spec : ∀ (rest : List String) (done : List (Option String))
    (m : Nat), rest.length ≤ m →
    copyLoop (done ++ List.replicate m none) rest done.length
      = some (done ++ rest.map some ++ List.replicate (m - rest.length) none) := by
  intro rest
  induction rest with
  | nil => intro done m _; simp [copyLoop]
  | cons h t ih =>
    intro done m hm
    obtain ⟨m2, rfl⟩ : ∃ m2, m = m2 + 1 := ⟨m - 1, by simp at hm; omega⟩
    rw [List.replicate_succ]
    unfold copyLoop
    rw [setAt_of_lt _ _ _ (by simp), set_boundary]
    have hm2 : t.length ≤ m2 := by simp at hm; omega
    have hrec := ih (done ++ [some h]) m2 hm2
    show copyLoop (done ++ some h :: List.replicate m2 none) t
        (done.length + 1) = _
    simp only [List.append_assoc, List.singleton_append, List.length_append,
      List.length_cons, List.length_nil, Nat.zero_add] at hrec
    rw [hrec]
    simp [List.append_assoc]

/-- The overwrite branch of the header loop writes every header at its
enumerate position. -/
theorem whLoop_overwrite (startRow : Nat) (existing : List String) :
    ∀ (rest done : List String) (curIdx : Nat) (buf : List Cell),
      ∃ buf2, whLoop true startRow existing rest
          (done.map some ++ List.replicate rest.length none)
          done.length curIdx buf
        = some ((done ++ rest).map some, buf2) := by
  intro rest
  induction rest with
  | nil =>
    intro done curIdx buf
    exact ⟨buf, by simp [whLoop]⟩
  | cons h t ih =>
    intro done curIdx buf
    obtain ⟨buf2, hb⟩ := ih (done ++ [h]) curIdx (buf ++ [(startRow, done.length, h)])
    refine ⟨buf2, ?_⟩
    show whLoop true startRow existing (h :: t)
        (done.map some ++ List.replicate (t.length + 1) none)
        done.length curIdx buf = _
    rw [List.replicate_succ]
    unfold whLoop
    rw [if_pos rfl, setAt_of_lt _ _ _ (by simp),
      set_boundary' (done.map some) none (List.replicate t.length none)
        (some h) done.length (by simp)]
    show whLoop true startRow existing t
        (done.map some ++ some h :: List.replicate t.length none)
        (done.length + 1) curIdx (buf ++ [(startRow, done.length, h)]) = _
    simpa using hb

/-- The non-overwrite branch of the header loop: already-present headers
are rewritten in place (no cell staged, array unchanged), genuinely new
headers are appended in write order at `current_header_idx`.  The array
invariantly holds the existing headers followed by the new ones so far,
then exactly enough placeholders for the new headers still to come. -/
theorem whLoop_merge (startRow : Nat) (existing : List String) :
    ∀ (rest newSoFar : List String) (pos : Nat) (buf : List Cell),
      ∃ buf2,
        whLoop false startRow existing rest
          ((existing ++ newSoFar).map some
            ++ List.replicate
              (rest.filter (fun x => !(existing.contains x))).length
              (none : Option String))
          pos (existing.length + newSoFar.length) buf
        = some (((existing ++ newSoFar)
            ++ rest.filter (fun x => !(existing.contains x))).map some, buf2) := by
  intro rest
  induction rest with
  | nil =>
    intro newSoFar pos buf
    exact ⟨buf, by simp [whLoop]⟩
  | cons h t ih =>
    intro newSoFar pos buf
    by_cases hc : existing.contains h = true
    · have hmem : h ∈ existing := by simpa using hc
      have hne : existing.isEmpty = false := by
        cases existing with
        | nil => simp at hc
        | cons a b => rfl
      obtain ⟨oi, hpi, hgi⟩ := pyIndex_mem existing h hc
      have hoi : oi < existing.length := by
        by_contra hcon
        push_neg at hcon
        rw [List.getElem?_eq_none hcon] at hgi
        exact Option.noConfusion hgi
      have hfilter : (h :: t).filter (fun x => !(existing.contains x))
          = t.filter (fun x => !(existing.contains x)) := by
        simp [List.filter_cons, hc, hmem]
      have harr : ((existing ++ newSoFar).map some
          ++ List.replicate
            ((t.filter (fun x => !(existing.contains x))).length)
            (none : Option String))[oi]? = some (some h) := by
        rw [List.getElem?_append_left (by simp; omega)]
        rw [List.getElem?_map]
        rw [List.getElem?_append_left hoi, hgi]
        rfl
      obtain ⟨buf2, hrec⟩ := ih newSoFar (pos + 1) buf
      refine ⟨buf2, ?_⟩
      rw [hfilter]
      unfold whLoop
      rw [if_neg Bool.false_ne_true, if_pos (by simp [hne, hc, hmem])]
      simp only [hpi, setAt_same _ _ _ harr]
      exact hrec
    · have hcb : existing.contains h = false := by
        simpa using hc
      have hnmem : h ∉ existing := by simpa using hcb
      have hfilter : (h :: t).filter (fun x => !(existing.contains x))
          = h :: t.filter (fun x => !(existing.contains x)) := by
        simp [List.filter_cons, hcb, hnmem]
      obtain ⟨buf2, hrec⟩ := ih (newSoFar ++ [h]) (pos + 1)
        (buf ++ [(startRow, existing.length + newSoFar.length, h)])
      refine ⟨buf2, ?_⟩
      rw [hfilter, List.length_cons, List.replicate_succ]
      unfold whLoop
      rw [if_neg Bool.false_ne_true, if_neg (by simp [hcb, hnmem])]
      rw [setAt_of_lt _ _ _ (by simp)]
      rw [set_boundary' ((existing ++ newSoFar).map some) none _ (some h)
        (existing.length + newSoFar.length) (by simp)]
      show whLoop false startRow existing t
          ((existing ++ newSoFar).map some
            ++ some h :: List.replicate
              ((t.filter (fun x => !(existing.contains x))).length) none)
          (pos + 1) (existing.length + newSoFar.length + 1)
          (buf ++ [(startRow, existing.length + newSoFar.length, h)]) = _
      have harr2 : (existing ++ (newSoFar ++ [h])).map some
          ++ List.replicate
            ((t.filter (fun x => !(existing.contains x))).length)
            (none : Option String)
          = (existing ++ newSoFar).map some
            ++ some h :: List.replicate
              ((t.filter (fun x => !(existing.contains x))).length) none := by
        simp
      have hidx : existing.length + (newSoFar ++ [h]).length
          = existing.length + newSoFar.length + 1 := by
        simp [Nat.add_assoc]
      rw [harr2, hidx] at hrec
      rw [hrec]
      simp [List.append_assoc]

/-! ## Claim C5: header reconciliation (corrected)

As stated (for *every* written header list) the claim fails: the
placeholder array `_headers` is sized by the *set* union
`len(set(headers) | set(existing))`, so duplicated names make the loop
assign past the end of the array and raise `IndexError` instead of
producing a header list (e.g. existing `[A]`, written `[B, B]`).  For
duplicate-free lists — the spec's own header-uniqueness invariant — the
claim is exact. -/

/-- Amended claim C5: for every duplicate-free existing header row and
every duplicate-free written header list, `_write_headers` without
overwrite yields the existing headers in their original positions
followed by exactly the genuinely new names in write order; with
overwrite it yields exactly the written list.  (With duplicated names
the non-overwrite branch raises `IndexError` instead.) -/
theorem write_headers_c5 (existing headers : List String) (startRow : Nat)
    (h1 : existing.Nodup) (h2 : headers.Nodup) :
    (writeHeadersCore existing headers startRow false).map (fun r => r.2.1)
      = some ((existing
          ++ headers.filter (fun x => !(existing.contains x))).map some)
    ∧ (writeHeadersCore existing headers startRow true).map (fun r => r.2.1)
      = some (headers.map some) := by
  constructor
  · have hfilter_nodup : (headers.filter (fun x => !(existing.contains x))).Nodup :=
      h2.filter _
    have hsd : (headers.filter (fun x => !(existing.contains x))).toFinset
        = headers.toFinset \ existing.toFinset := by
      rw [List.toFinset_filter, Finset.sdiff_eq_filter]
      apply Finset.filter_congr
      intro x hx
      simp
    have hcard : (headers.toFinset ∪ existing.toFinset).card
        = existing.length
          + (headers.filter (fun x => !(existing.contains x))).length := by
      rw [← Finset.card_sdiff_add_card headers.toFinset existing.toFinset, ← hsd,
        List.toFinset_card_of_nodup hfilter_nodup, List.toFinset_card_of_nodup h1]
      omega
    have hlen : existing.length ≤ (headers.toFinset ∪ existing.toFinset).card := by
      omega
    have hcopy := copyLoop_spec existing []
      ((headers.toFinset ∪ existing.toFinset).card) hlen
    simp only [List.nil_append, List.length_nil] at hcopy
    have hk : (headers.toFinset ∪ existing.toFinset).card - existing.length
        = (headers.filter (fun x => !(existing.contains x))).length := by
      omega
    rw [hk] at hcopy
    obtain ⟨buf2, hloop⟩ := whLoop_merge startRow existing headers [] 0 []
    simp only [List.append_nil, List.length_nil, Nat.add_zero] at hloop
    have hcur : (if existing.isEmpty then 0 else existing.length)
        = existing.length := by
      cases existing <;> simp
    unfold writeHeadersCore
    rw [if_neg Bool.false_ne_true]
    rw [hcopy]
    show (match whLoop false startRow existing headers
        (existing.map some ++ List.replicate
          ((headers.filter (fun x => !(existing.contains x))).length)
          (none : Option String)) 0
        (if existing.isEmpty then 0 else existing.length) [] with
      | none => none
      | some (arr2, buf) =>
        some (startRow + 1, arr2, buf)).map
        (fun r : Nat × List (Option String) × List Cell => r.2.1) = _
    rw [hcur, hloop]
    rfl
  · obtain ⟨buf2, hloop⟩ := whLoop_overwrite startRow existing headers []
      (if existing.isEmpty then 0 else existing.length) []
    simp only [List.map_nil, List.nil_append, List.length_nil] at hloop
    unfold writeHeadersCore
    rw [if_pos rfl]
    show (match whLoop true startRow existing headers
        (List.replicate headers.length (none : Option String)) 0
        (if existing.isEmpty then 0 else existing.length) [] with
      | none => none
      | some (arr2, buf) =>
        some (startRow + 1, arr2, buf)).map
        (fun r : Nat × List (Option String) × List Cell => r.2.1) = _
    rw [hloop]
    rfl

/-- Witness for C5 at the spec's example: writing `[A, B]` onto existing
`[A, C]` yields `[A, C, B]` without overwrite, and `[A, B]` with. -/
theorem write_headers_c5_witness :
    (writeHeadersCore ["A", "C"] ["A", "B"] 0 false).map
        (fun r : Nat × List (Option String) × List Cell => r.2.1)
      = some [some "A", some "C", some "B"]
    ∧ (writeHeadersCore ["A", "C"] ["A", "B"] 0 true).map
        (fun r : Nat × List (Option String) × List Cell => r.2.1)
      = some [some "A", some "B"] := by
  have h := write_headers_c5 ["A", "C"] ["A", "B"] 0 (by decide) (by decide)
  exact ⟨h.1.trans (by decide), h.2.trans (by decide)⟩

/-- Counterexample to C5 as stated: writing `[B, B]` onto existing `[A]`
raises `IndexError` (the placeholder array has `|{A, B}| = 2` slots but
three assignments target it), so no final header list is produced at
all — in particular not one with the new names appended. -/
theorem write_headers_c5_cex :
    (writeHeadersCore ["A"] ["B", "B"] 0 false).map
        (fun r : Nat × List (Option String) × List Cell => r.2.1) = none
    ∧ (none : Option (List (Option String)))
        ≠ some ((["A"] ++ ["B", "B"].filter
            (fun x => !(List.contains ["A"] x))).map some) := by
  exact ⟨by decide, by decide⟩

/-! ## Claim C6: no-clobber cell write -/

/-- Claim C6: in `write_cells`, for a targeted update whose row is
located, whose column exists in the headers, and whose target cell
exists in that row: if the cell's current value is non-empty, differs
from the new value, and overwrite was not requested, no write is staged
(the cell is left unchanged and the skip is logged); if overwrite is
requested, or the cell is empty, or the values are equal, the new value
is staged. -/
theorem write_cells_noclobber_c6 (headers : List String)
    (vals : List (List String)) (w : List (String × String)) (k v : String)
    (overwrite : Bool) (ri c : Nat) (row : List String) (cur : String)
    (hrow : rowFind headers vals w = .ok (some ri))
    (hcol : pyIndex headers k = some c)
    (hr : vals[ri]? = some row)
    (hcur : row[c]? = some cur) :
    writeCells headers vals [w] [[(k, v)]] overwrite
      = .ok (if cur ≠ "" ∧ cur ≠ v ∧ overwrite = false then []
             else [(ri, c, v)]) := by
  show writeCellsGo headers vals overwrite [(w, [(k, v)])] [] = _
  unfold writeCellsGo
  rw [hrow]
  show (match processWhat headers vals ri overwrite [(k, v)] [] with
    | Except.error e => Except.error e
    | Except.ok buf2 => writeCellsGo headers vals overwrite [] buf2) = _
  unfold processWhat
  simp only [hcol]
  simp only [hr]
  simp only [hcur]
  by_cases hcond : cur ≠ "" ∧ cur ≠ v ∧ overwrite = false
  · rw [if_pos hcond, if_pos hcond]
    rfl
  · rw [if_neg hcond, if_neg hcond]
    rfl

/-- Witness for C6: the located row's target cell holds `"X"`, the write
requests `"Y"` without overwrite, and nothing is staged. -/
theorem write_cells_noclobber_c6_witness :
    writeCells ["A", "B"] [["A", "B"], ["x", "X"]]
      [[("A", "x")]] [[("B", "Y")]] false = .ok [] := by
  have h := write_cells_noclobber_c6 ["A", "B"] [["A", "B"], ["x", "X"]]
    [("A", "x")] "B" "Y" false 1 1 ["x", "X"] "X" rfl rfl rfl rfl
  exact h.trans (congrArg Except.ok (if_pos ⟨by decide, by decide, rfl⟩))

/-! ## Claim C10: skip behaviour in `write_cells` (corrected)

The no-matching-row skip is real only when every condition names a
column present in the header row (and the scanned rows are long enough):
`headers.index(k)` raises `ValueError` inside the matching generator,
and the `try` around `next(...)` catches only `StopIteration`, so a
condition on a missing column aborts `write_cells` instead of skipping
the pair.  The update-side skip (missing column in `what_`) is exact. -/

/-- Amended claim C10: a `(conditions, updates)` pair whose conditions
evaluate without error and match no row is skipped (no staged writes
from that pair) and processing continues with the remaining pairs; an
update naming a column header absent from the header row skips only
that column.  (A *condition* naming an absent column instead raises an
uncaught `ValueError` that aborts the whole call.) -/
theorem write_cells_skip_c10 (headers : List String)
    (vals : List (List String)) (w : List (String × String))
    (u : List (String × String))
    (rest : List (List (String × String) × List (String × String)))
    (buf : List Cell) (overwrite : Bool) (k v : String)
    (us : List (String × String)) (ri : Nat) :
    (rowFind headers vals w = .ok none →
      writeCellsGo headers vals overwrite ((w, u) :: rest) buf
        = writeCellsGo headers vals overwrite rest buf)
    ∧ (pyIndex headers k = none →
      processWhat headers vals ri overwrite ((k, v) :: us) buf
        = processWhat headers vals ri overwrite us buf) := by
  constructor
  · intro h
    conv_lhs => unfold writeCellsGo
    rw [h]
  · intro h
    conv_lhs => unfold processWhat
    rw [h]

/-- Witness for C10: a pair whose (column-valid) conditions match no row
stages nothing and the call finishes; an update on a missing column is
skipped. -/
theorem write_cells_skip_c10_witness :
    writeCellsGo ["A"] [["x"]] false [([("A", "zzz")], [("A", "y")])] []
      = Except.ok []
    ∧ processWhat ["A"] [["x"]] 0 false [("B", "y")] [] = Except.ok [] := by
  have h := write_cells_skip_c10 ["A"] [["x"]] [("A", "zzz")] [("A", "y")]
    [] [] false "B" "y" [] 0
  exact ⟨(h.1 rfl).trans rfl, (h.2 rfl).trans rfl⟩

/-- Counterexample to C10 as stated: a single pair whose condition names
the absent column `B` raises an uncaught `ValueError` — `write_cells`
aborts instead of skipping the pair and continuing (which would have
returned an empty staged-write list). -/
theorem write_cells_skip_c10_cex :
    writeCells ["A"] [["x"]] [[("B", "y")]] [[("A", "z")]] false
      = Except.error PyErr.valueError
    ∧ Except.error PyErr.valueError
        ≠ (Except.ok [] : Except PyErr (List Cell)) := by
  exact ⟨rfl, fun hcon => Except.noConfusion hcon⟩
